import Mathlib

/-!
Verification development for the WCAG-2.2-RAG repository.

The Python sources are shallowly embedded as executable Lean definitions:

* `src/rag/spec_rag.py` / `src/rag/llm_rag.py` — the confidence gates
  `should_refuse` (threshold 0.40) and `_should_refuse` (threshold 0.55,
  embedded here as `llm_should_refuse`).
* `src/retrieval/retrieve.py` — `retrieve`, modelled over an abstract
  embedding provider and an in-memory index; the vector store's cosine
  k-NN query is modelled as a stable sort by cosine distance followed by
  truncation to `k` results.
* `src/retrieval/build_index.py` — the per-chunk metadata record.
* `src/ingestion/parse_spec.py` — the segmenter: identifier parsing
  (`SC_LABEL_RE` / `SC_ANYWHERE_RE`), text normalisation, body-text
  accumulation, deduplication, and chunk construction.  The document tree
  is modelled pre-flattened into a linear sequence of nodes in document
  order, each carrying its tag name and flattened text, matching the
  `find_all` / `next_elements` traversal order of the source.

Strings manipulated character-by-character are modelled as `List Char`;
floating-point distances are modelled as `ℚ`.
-/

/-! ## Data model for retrieval (src/retrieval/retrieve.py) -/

/-- One persisted entry of the vector-store collection: identifier,
embedding vector, document text and flat metadata record. -/
structure IndexEntry where
  id : String
  embedding : List ℚ
  text : String
  meta : List (String × String)
deriving DecidableEq

/-- One element of the list returned by `retrieve` (retrieve.py lines 30-38):
id, cosine distance, text and metadata of a hit. -/
structure RetrievalResult where
  id : String
  distance : ℚ
  text : String
  meta : List (String × String)
deriving DecidableEq

/-- Dot product of two rational vectors (zero-padded on length mismatch). -/
def dotQ : List ℚ → List ℚ → ℚ
  | a :: as, b :: bs => a * b + dotQ as bs
  | _, _ => 0

/-- Cosine distance used by the chroma collection (built with
hnsw:space = cosine over vectors normalised at build and query time):
one minus the dot product. -/
def cosDist (q v : List ℚ) : ℚ := 1 - dotQ q v

/-- Comparison on scored entries: ascending cosine distance. -/
def entryLE (a b : IndexEntry × ℚ) : Prop := a.2 ≤ b.2

instance : DecidableRel entryLE :=
  fun a b => inferInstanceAs (Decidable (a.2 ≤ b.2))

instance : IsTotal (IndexEntry × ℚ) entryLE :=
  ⟨fun a b => le_total a.2 b.2⟩

instance : IsTrans (IndexEntry × ℚ) entryLE :=
  ⟨fun _ _ _ h h2 => le_trans h h2⟩

/-- Model of `col.query(query_embeddings=[q_emb], n_results=k, ...)`:
score every entry by cosine distance to the query embedding, order
ascending by distance (stable), and return at most `k` entries. -/
def queryIndex (index : List IndexEntry) (q : List ℚ) (k : Nat) :
    List (IndexEntry × ℚ) :=
  (List.insertionSort entryLE (index.map (fun e => (e, cosDist q e.embedding)))).take k

/-- Model of `retrieve(query, k)` (retrieve.py lines 18-39): embed the query
with the external embedding provider `embed`, run the k-NN query, and package
each hit as a result record.  The query text is passed to `embed` unchanged;
no emptiness or trimming check is performed anywhere in the function. -/
def retrieve (embed : String → List ℚ) (index : List IndexEntry)
    (query : String) (k : Nat) : List RetrievalResult :=
  (queryIndex index (embed query) k).map (fun p => ⟨p.1.id, p.2, p.1.text, p.1.meta⟩)

/-! ## Confidence gates (src/rag/spec_rag.py, src/rag/llm_rag.py) -/

/-- Model of `should_refuse` (spec_rag.py lines 12-18): refuse on an empty
result list, otherwise refuse iff the top distance strictly exceeds 0.40. -/
def should_refuse (results : List RetrievalResult) : Bool :=
  match results with
  | [] => true
  | best :: _ => decide (best.distance > 2/5)

/-- Model of `_should_refuse` (llm_rag.py lines 28-32): refuse on an empty
result list, otherwise refuse iff the top distance strictly exceeds 0.55.
The source name starts with an underscore; it is embedded here as
`llm_should_refuse`. -/
def llm_should_refuse (results : List RetrievalResult) : Bool :=
  match results with
  | [] => true
  | best :: _ => decide (best.distance > 11/20)

/-! ## Text normalisation (src/ingestion/parse_spec.py lines 20-23) -/

/-- Horizontal whitespace, the character class of the pattern [ \t]. -/
def isHoriz (c : Char) : Bool := c == ' ' || c == '\t'

/-- Python str.strip() whitespace, restricted to ASCII:
space, tab, newline, carriage return, vertical tab, form feed. -/
def pySpace (c : Char) : Bool :=
  c == ' ' || c == '\t' || c == '\n' || c == '\r' || c == '\x0b' || c == '\x0c'

/-- Model of `re.sub(r"[ \t]+", " ", text)`: each maximal run of spaces and
tabs is replaced by one single space.  A run is consumed by dropping all but
its last character and emitting one space in place of that last character. -/
def collapseH : List Char → List Char
  | [] => []
  | [c] => if isHoriz c then [' '] else [c]
  | a :: b :: rest =>
    if isHoriz a then
      if isHoriz b then collapseH (b :: rest)
      else ' ' :: collapseH (b :: rest)
    else a :: collapseH (b :: rest)

/-- Model of `re.sub(r"\n{3,}", "\n\n", text)`: each maximal run of three or
more newline characters is replaced by exactly two newlines; shorter runs are
kept.  A long run is consumed by dropping newlines from its front for as long
as at least three remain. -/
def collapseN : List Char → List Char
  | a :: b :: c :: rest =>
    if a = '\n' ∧ b = '\n' ∧ c = '\n' then collapseN (b :: c :: rest)
    else a :: collapseN (b :: c :: rest)
  | l => l

/-- Model of Python str.strip(): drop leading and trailing whitespace. -/
def pyStrip (l : List Char) : List Char :=
  ((l.dropWhile pySpace).reverse.dropWhile pySpace).reverse

/-- Model of `normalize_text` (parse_spec.py lines 20-23): collapse
horizontal whitespace runs, collapse newline runs of length three or more,
then strip both ends. -/
def normalize_text (l : List Char) : List Char :=
  pyStrip (collapseN (collapseH l))

/-! ### Proof-support predicates for normalisation invariants -/

/-- Two adjacent characters are acceptable after horizontal collapsing when
they are not both horizontal whitespace. -/
def hOK (a b : Char) : Prop := isHoriz a = false ∨ isHoriz b = false

/-- A string with no two adjacent horizontal-whitespace characters. -/
def HGood (l : List Char) : Prop := l.Chain' hOK

/-- A string containing no tab character. -/
def NoTab (l : List Char) : Prop := '\t' ∉ l

/-- A string with no three consecutive newline characters. -/
def NoNNN (l : List Char) : Prop := ¬ (['\n', '\n', '\n'] <:+: l)

/-- A string whose first and last characters (when present) are not
Python whitespace. -/
def Stripped (l : List Char) : Prop :=
  (∀ c ∈ l.head?, pySpace c = false) ∧ (∀ c ∈ l.getLast?, pySpace c = false)

/-- Concrete embedding provider used for concrete checks: maps every string
to the one-dimensional unit vector. -/
def ceEmbed : String → List ℚ := fun _ => [1]

/-- Concrete one-entry index state used for concrete checks. -/
def ceIndex : List IndexEntry :=
  [{ id := "1.1.1", embedding := [1], text := "Example text", meta := [] }]

/-! ## Segmenter: identifier parsing (src/ingestion/parse_spec.py lines 12-39) -/

/-- ASCII decimal digit, the character class of the regex token for digits. -/
def isDigitC (c : Char) : Bool := c.isDigit

/-- Regex word character (ASCII): letter, digit or underscore. -/
def wordChar (c : Char) : Bool := c.isAlphanum || c == '_'

/-- Case-insensitive literal matcher: when the input starts with the given
lowercase pattern up to ASCII lowercasing, return the remainder. -/
def stripLitCI : List Char → List Char → Option (List Char)
  | [], l => some l
  | _ :: _, [] => none
  | p :: ps, c :: cs => if c.toLower = p then stripLitCI ps cs else none

/-- Model of the tail of SC_LABEL_RE after the identifier: at least one
whitespace character, then the lazily-shortest group still reaching the last
non-whitespace character; the dot of the pattern does not match a newline,
and trailing whitespace is left outside the group.  For an all-whitespace
remainder the backtracking match yields the rightmost non-newline whitespace
character at index one or later, if any. -/
def labelTail (r : List Char) : Option (List Char) :=
  match r with
  | [] => none
  | c :: _ =>
    if pySpace c = false then none
    else
      let afterWS := r.dropWhile pySpace
      if afterWS.isEmpty then
        match (r.drop 1).reverse.find? (fun x => x != '\n') with
        | some x => some [x]
        | none => none
      else
        let t := (afterWS.reverse.dropWhile pySpace).reverse
        if t.contains '\n' then none else some t

/-- Model of `SC_LABEL_RE.match(txt)` (parse_spec.py lines 12-16), the
anchored pattern for a literal label phrase, a three-part dotted numeric
identifier and a title, case-insensitively.  Returns the identifier
(group 1) and the title (group 2) on a match. -/
def labelMatch (txt : List Char) : Option (List Char × List Char) :=
  match stripLitCI (("success criterion").toList) (txt.dropWhile pySpace) with
  | none => none
  | some r1 =>
    match r1 with
    | [] => none
    | c :: _ =>
      if pySpace c = false then none
      else
        let r2 := r1.dropWhile pySpace
        let d1 := r2.takeWhile isDigitC
        if d1.isEmpty then none
        else
          match r2.dropWhile isDigitC with
          | '.' :: r4 =>
            let d2 := r4.takeWhile isDigitC
            if d2.isEmpty then none
            else
              match r4.dropWhile isDigitC with
              | '.' :: r6 =>
                let d3 := r6.takeWhile isDigitC
                if d3.isEmpty then none
                else
                  match labelTail (r6.dropWhile isDigitC) with
                  | some title => some (d1 ++ '.' :: d2 ++ '.' :: d3, title)
                  | none => none
              | _ => none
          | _ => none

/-- Attempt to match a three-part dotted number followed by a word boundary,
anchored at the start of the input, returning the matched identifier. -/
def tryNum (l : List Char) : Option (List Char) :=
  let d1 := l.takeWhile isDigitC
  if d1.isEmpty then none
  else
    match l.dropWhile isDigitC with
    | x :: r2 =>
      if x = '.' then
        let d2 := r2.takeWhile isDigitC
        if d2.isEmpty then none
        else
          match r2.dropWhile isDigitC with
          | y :: r4 =>
            if y = '.' then
              let d3 := r4.takeWhile isDigitC
              if d3.isEmpty then none
              else
                match r4.dropWhile isDigitC with
                | [] => some (d1 ++ '.' :: d2 ++ '.' :: d3)
                | c :: _ =>
                  if wordChar c then none else some (d1 ++ '.' :: d2 ++ '.' :: d3)
            else none
          | [] => none
      else none
    | [] => none

/-- Model of `SC_ANYWHERE_RE.search(txt)` (parse_spec.py line 17): scan left
to right for the first position with a word boundary before it at which a
three-part dotted number followed by a word boundary matches. -/
def scanAnywhere : Option Char → List Char → Option (List Char)
  | _, [] => none
  | prev, c :: cs =>
    let boundary :=
      match prev with
      | none => true
      | some p => !(wordChar p)
    match (if boundary then tryNum (c :: cs) else none) with
    | some found => some found
    | none => scanAnywhere (some c) cs

/-- Remainder of the text after the first occurrence of `sep` as a
contiguous substring; models the Python one-split last element for a
separator that occurs in the text. -/
def splitAfterFirst (sep : List Char) : List Char → Option (List Char)
  | [] => none
  | c :: cs =>
    if sep.isPrefixOf (c :: cs) then some ((c :: cs).drop sep.length)
    else splitAfterFirst sep cs

/-- Character set of the strip argument " :-–—" of the fallback title. -/
def dashChars : List Char := [' ', ':', '-', '–', '—']

/-- Model of Python str.strip(chars): drop characters of the given set from
both ends. -/
def stripChars (cset : List Char) (l : List Char) : List Char :=
  ((l.dropWhile (fun c => cset.contains c)).reverse.dropWhile
    (fun c => cset.contains c)).reverse

/-- Model of `parse_sc_from_text` (parse_spec.py lines 25-39): try the
labeled pattern first; otherwise search for a dotted number anywhere, reject
identifiers starting with "5." (conformance subsections), and take as title
the text after the first occurrence of the identifier with the characters
" :-–—" stripped from both ends, requiring it non-empty. -/
def parse_sc_from_text (txt : List Char) : Option (List Char × List Char) :=
  match labelMatch txt with
  | some p => some p
  | none =>
    match scanAnywhere none txt with
    | some sc_id =>
      if ['5', '.'].isPrefixOf sc_id then none
      else
        let afterSplit :=
          match splitAfterFirst sc_id txt with
          | some r => r
          | none => txt
        let title := stripChars dashChars afterSplit
        if title.isEmpty then none else some (sc_id, title)
    | none => none

/-- Attempt to match the conformance-level pattern anchored at the start:
the literal word, whitespace, then one to three letters A (case-insensitive)
followed by a word boundary; returns the uppercased group. -/
def tryLevel (l : List Char) : Option (List Char) :=
  match stripLitCI (("level").toList) l with
  | none => none
  | some r =>
    match r with
    | [] => none
    | c :: _ =>
      if pySpace c = false then none
      else
        let r2 := r.dropWhile pySpace
        let run := r2.takeWhile (fun x => x.toLower == 'a')
        if run.isEmpty then none
        else if 3 < run.length then none
        else
          match r2.dropWhile (fun x => x.toLower == 'a') with
          | [] => some (List.replicate run.length 'A')
          | c2 :: _ =>
            if wordChar c2 then none else some (List.replicate run.length 'A')

/-- Scan for the first match of LEVEL_RE, tracking the previous character
for the leading word boundary. -/
def scanLevel : Option Char → List Char → Option (List Char)
  | _, [] => none
  | prev, c :: cs =>
    let boundary :=
      match prev with
      | none => true
      | some p => !(wordChar p)
    match (if boundary then tryLevel (c :: cs) else none) with
    | some lv => some lv
    | none => scanLevel (some c) cs

/-- Model of `infer_level` (parse_spec.py lines 77-79). -/
def infer_level (text : List Char) : Option (List Char) := scanLevel none text

/-! ## Segmenter: document model and chunk assembly (parse_spec.py 41-150) -/

/-- One node of the parsed document, pre-flattened into document order: tag
name, flattened text, own id attribute and parent id attribute. -/
structure Node where
  name : String
  text : List Char
  idAttr : Option String
  parentIdAttr : Option String
deriving DecidableEq

/-- Tag names scanned for Success-Criterion heads (parse_spec.py line 105). -/
def headingTags : List String := ["h2", "h3", "h4", "h5", "dt"]

/-- Tag names skipped as navigation-like regions (parse_spec.py line 66). -/
def navTags : List String := ["nav", "header", "footer"]

/-- Tag names whose text is collected as body content (line 70). -/
def bodyTags : List String := ["p", "li", "dt", "dd", "blockquote"]

/-- Model of `is_sc_node` (parse_spec.py lines 41-46). -/
def is_sc_node (n : Node) : Option (List Char × List Char) :=
  if n.name ∈ headingTags then parse_sc_from_text n.text else none

/-- Model of `is_major_section_heading` (parse_spec.py lines 48-50). -/
def is_major_section_heading (n : Node) : Bool := n.name == "h2"

/-- Body-text contribution of one walked element (the loop body of
`collect_until_next_sc` after the stop checks, parse_spec.py lines 65-73):
navigation-like tags contribute nothing, content-bearing tags with non-empty
text contribute their text. -/
def bodyPart (el : Node) : Option (List Char) :=
  if el.name ∈ navTags then none
  else if el.name ∈ bodyTags ∧ el.text ≠ [] then some el.text
  else none

/-- The walk of `collect_until_next_sc` over the elements following the head
node (parse_spec.py lines 58-73): stop at another recognised chunk head or at
a top-level section heading, otherwise accumulate body parts. -/
def collectParts : List Node → List (List Char)
  | [] => []
  | el :: rest =>
    if (is_sc_node el).isSome then []
    else if is_major_section_heading el then []
    else
      match bodyPart el with
      | some t => t :: collectParts rest
      | none => collectParts rest

/-- Join text blocks with single newlines. -/
def joinNL : List (List Char) → List Char
  | [] => []
  | [p] => p
  | p :: ps => p ++ '\n' :: joinNL ps

/-- Model of `collect_until_next_sc` (parse_spec.py lines 52-75): start from
the head's own text, walk the following elements, join with newlines and
normalise the result. -/
def collect_until_next_sc (start : Node) (following : List Node) : List Char :=
  normalize_text (joinNL (start.text :: collectParts following))

/-- Model of the document scan (parse_spec.py lines 104-108): every heading
tag whose text parses as a Success Criterion, in document order, paired with
the elements that follow it and its parse result. -/
def scNodesAux : List Node → List (Node × List Node × (List Char × List Char))
  | [] => []
  | n :: rest =>
    match is_sc_node n with
    | some p => (n, rest, p) :: scNodesAux rest
    | none => scNodesAux rest

/-- Model of the deduplication loop (parse_spec.py lines 110-117): drop an
entry whose identifier was already seen, keep the first occurrence of each
identifier, preserving order. -/
def dedupBy (seen : List (List Char)) :
    List (Node × List Node × (List Char × List Char)) →
    List (Node × List Node × (List Char × List Char))
  | [] => []
  | e :: rest =>
    if e.2.2.1 ∈ seen then dedupBy seen rest
    else e :: dedupBy (e.2.2.1 :: seen) rest

/-- Truthiness filter on an optional id attribute: the empty string is
falsy in the source's conditional. -/
def truthyId : Option String → Option String
  | some s => if s = "" then none else some s
  | none => none

/-- Model of `anchor_for` (parse_spec.py lines 81-87): the node's own id
attribute if truthy, else the parent's id attribute if truthy. -/
def anchor_for (n : Node) : Option String :=
  match truthyId n.idAttr with
  | some i => some i
  | none => truthyId n.parentIdAttr

/-- A chunk record as written by `main` (parse_spec.py lines 126-136). -/
structure Chunk where
  doc_set : String
  source : String
  normativity : String
  version : String
  sc_id : String
  sc_title : String
  level : Option String
  url : String
  text : String
deriving DecidableEq

/-- Chunk construction for one deduplicated head entry
(parse_spec.py lines 123-136). -/
def mkChunk (e : Node × List Node × (List Char × List Char)) : Chunk :=
  let text := collect_until_next_sc e.1 e.2.1
  { doc_set := "wcag22"
    source := "wcag_spec"
    normativity := "normative"
    version := "2.2"
    sc_id := String.mk e.2.2.1
    sc_title := String.mk e.2.2.2
    level := (infer_level text).map String.mk
    url :=
      match anchor_for e.1 with
      | some a => "https://www.w3.org/TR/WCAG22/#" ++ a
      | none => "https://www.w3.org/TR/WCAG22/"
    text := String.mk text }

/-- The segmenter pipeline of `main` (parse_spec.py lines 104-136): scan for
Success-Criterion heads in document order, deduplicate by identifier keeping
first occurrences, and build one chunk per kept head. -/
def segmentDoc (doc : List Node) : List Chunk :=
  (dedupBy [] (scNodesAux doc)).map mkChunk

/-- First dotted component of an identifier. -/
def firstComp (ident : List Char) : List Char := ident.takeWhile (fun c => c != '.')

/-! ## Index builder metadata (src/retrieval/build_index.py lines 56-77) -/

/-- Model of `safe_str` (build_index.py lines 58-59): a missing value becomes
the empty string. -/
def safe_str : Option String → String
  | none => ""
  | some s => s

/-- Model of the metadata record built for one loaded chunk
(build_index.py lines 61-71): an association list with exactly the seven
keys written by the source; the chunk's `doc_set` field is not among them. -/
def chunkMetadata (d : Chunk) : List (String × String) :=
  [("sc_id", d.sc_id), ("sc_title", d.sc_title), ("level", safe_str d.level),
   ("url", d.url), ("source", d.source), ("normativity", d.normativity),
   ("version", d.version)]

/-- Concrete chunk used for concrete checks. -/
def exChunk : Chunk :=
  { doc_set := "wcag22", source := "wcag_spec", normativity := "normative",
    version := "2.2", sc_id := "1.2.3", sc_title := "Example",
    level := none, url := "https://www.w3.org/TR/WCAG22/",
    text := "Example body" }

/-- Concrete one-node document used for concrete checks: a labeled heading
whose identifier starts with the reserved section number 5. -/
def exDoc : List Node :=
  [{ name := "h3", text := ("Success Criterion 5.1.2 Title").toList,
     idAttr := some ("anchor-5-1-2"), parentIdAttr := none }]

/-- Concrete document with a duplicated identifier used for concrete checks:
two heads share identifier 1.2.3, a third head has identifier 1.2.4. -/
def dupDoc : List Node :=
  [{ name := "h3", text := ("Success Criterion 1.2.3 First Title").toList,
     idAttr := none, parentIdAttr := none },
   { name := "p", text := ("Body text here at Level AA").toList,
     idAttr := none, parentIdAttr := none },
   { name := "h4", text := ("Success Criterion 1.2.3 Duplicate Title").toList,
     idAttr := none, parentIdAttr := none },
   { name := "h3", text := ("Success Criterion 1.2.4 Next Title").toList,
     idAttr := none, parentIdAttr := none }]

/-! ## Theorems for the retrieval/gate claims -/

/-- C1: the confidence gate refuses on an empty results list; otherwise it
refuses if and only if the top result's distance strictly exceeds the fixed
threshold of its call path (0.40 for the no-LLM path, 0.55 for the
LLM-grounded path); at a top-1 distance exactly equal to the threshold the
gate does not refuse. -/
theorem gate_refusal_policy :
    should_refuse [] = true ∧ llm_should_refuse [] = true ∧
    ∀ r rest,
      (should_refuse (r :: rest) = true ↔ r.distance > 2/5) ∧
      (llm_should_refuse (r :: rest) = true ↔ r.distance > 11/20) ∧
      (r.distance = 2/5 → should_refuse (r :: rest) = false) ∧
      (r.distance = 11/20 → llm_should_refuse (r :: rest) = false) := by
  refine ⟨rfl, rfl, fun r rest => ⟨?_, ?_, ?_, ?_⟩⟩
  · simp [should_refuse]
  · simp [llm_should_refuse]
  · intro h
    simp [should_refuse, h]
  · intro h
    simp [llm_should_refuse, h]

/-- Boundary check for C1: at a top-1 distance exactly equal to each
threshold, neither gate refuses; an empty list always refuses. -/
theorem gate_refusal_policy_check :
    should_refuse [{ id := "1.1.1", distance := 2/5, text := "t", meta := [] }] = false ∧
    llm_should_refuse [{ id := "1.1.1", distance := 11/20, text := "t", meta := [] }] = false ∧
    should_refuse [] = true := by
  refine ⟨?_, ?_, gate_refusal_policy.1⟩
  · exact (gate_refusal_policy.2.2 _ []).2.2.1 rfl
  · exact (gate_refusal_policy.2.2 _ []).2.2.2 rfl

/-- C8: for every embedding provider, index state, query and k, `retrieve`
returns at most `k` results and the returned distances are non-decreasing
by position. -/
theorem retrieve_ranking (embed : String → List ℚ) (index : List IndexEntry)
    (query : String) (k : Nat) :
    (retrieve embed index query k).length ≤ k ∧
    List.Pairwise (fun a b => a.distance ≤ b.distance)
      (retrieve embed index query k) := by
  constructor
  · simp only [retrieve, List.length_map, queryIndex]
    exact List.length_take_le _ _
  · have hsorted := List.sorted_insertionSort entryLE
      (index.map (fun e => (e, cosDist (embed query) e.embedding)))
    have htake : List.Pairwise entryLE
        (queryIndex index (embed query) k) :=
      List.Pairwise.sublist (List.take_sublist _ _) hsorted
    exact List.Pairwise.map _ (fun a b h => h) htake

/-! ## Sanity checks for the normalisation model -/

example : collapseH (("a  \t b").toList) = ("a b").toList := by decide

example : collapseN (("a\n\n\n\nb").toList) = ("a\n\nb").toList := by decide

example : collapseN (("a\n\nb").toList) = ("a\n\nb").toList := by decide

example : normalize_text (("  a \t b\n\n\n\nc ").toList) = ("a b\n\nc").toList := by decide

/-- C6 counterexample: the input has two consecutive blank lines (three
consecutive newlines), which is fewer than three blank lines, yet
`normalize_text` does not keep them unchanged: it collapses them to one
blank line. -/
theorem normalize_two_blank_lines_collapsed :
    normalize_text (("a\n\n\nb").toList) = ("a\n\nb").toList ∧
    normalize_text (("a\n\n\nb").toList) ≠ ("a\n\n\nb").toList := by
  constructor
  · decide
  · decide

/-! ## Lemmas about horizontal-whitespace collapsing -/

theorem isHoriz_tab : isHoriz '\t' = true := rfl

theorem eq_space_of_isHoriz {a : Char} (h : isHoriz a = true) (hn : a ≠ '\t') :
    a = ' ' := by
  rcases (by simpa [isHoriz] using h : a = ' ' ∨ a = '\t') with h1 | h1
  · exact h1
  · exact absurd h1 hn

theorem collapseH_head : ∀ (b : Char) (rest : List Char),
    (collapseH (b :: rest)).head? = some (if isHoriz b then ' ' else b) := by
  intro b rest
  induction rest generalizing b with
  | nil => by_cases h : isHoriz b <;> simp [collapseH, h]
  | cons c cs ih =>
    by_cases h : isHoriz b
    · by_cases h2 : isHoriz c
      · have hstep : collapseH (b :: c :: cs) = collapseH (c :: cs) := by
          simp [collapseH, h, h2]
        rw [hstep, ih c]
        simp [h, h2]
      · simp [collapseH, h, h2]
    · simp [collapseH, h]

theorem collapseH_good : ∀ l : List Char, HGood (collapseH l) ∧ NoTab (collapseH l) := by
  intro l
  induction l with
  | nil => exact ⟨List.chain'_nil, by simp [NoTab, collapseH]⟩
  | cons a tail ih =>
    cases tail with
    | nil =>
      by_cases h : isHoriz a
      · refine ⟨?_, ?_⟩
        · rw [show collapseH [a] = [' '] by simp [collapseH, h]]
          exact List.chain'_singleton ' '
        · simp [NoTab, collapseH, h]
      · refine ⟨?_, ?_⟩
        · rw [show collapseH [a] = [a] by simp [collapseH, h]]
          exact List.chain'_singleton a
        · have hne : a ≠ '\t' := fun hEq => h (hEq ▸ isHoriz_tab)
          simp [NoTab, collapseH, h]
          exact Ne.symm hne
    | cons b rest =>
      by_cases h : isHoriz a
      · by_cases h2 : isHoriz b
        · have hstep : collapseH (a :: b :: rest) = collapseH (b :: rest) := by
            simp [collapseH, h, h2]
          rw [hstep]; exact ih
        · have hstep : collapseH (a :: b :: rest) = ' ' :: collapseH (b :: rest) := by
            simp [collapseH, h, h2]
          rw [hstep]
          refine ⟨?_, ?_⟩
          · refine List.chain'_cons'.mpr ⟨?_, ih.1⟩
            intro y hy
            rw [collapseH_head b rest] at hy
            simp [h2] at hy
            exact Or.inr (hy ▸ (by simpa using h2))
          · intro hmem
            rcases List.mem_cons.mp hmem with h1 | h1
            · exact absurd h1.symm (by decide)
            · exact ih.2 h1
      · have hstep : collapseH (a :: b :: rest) = a :: collapseH (b :: rest) := by
          simp [collapseH, h]
        rw [hstep]
        refine ⟨?_, ?_⟩
        · refine List.chain'_cons'.mpr ⟨?_, ih.1⟩
          intro y hy
          exact Or.inl (by simpa using h)
        · intro hmem
          rcases List.mem_cons.mp hmem with h1 | h1
          · exact h (h1 ▸ isHoriz_tab)
          · exact ih.2 h1

theorem collapseH_id : ∀ l : List Char, HGood l → NoTab l → collapseH l = l := by
  intro l
  induction l with
  | nil => intro _ _; rfl
  | cons a tail ih =>
    cases tail with
    | nil =>
      intro _ hnt
      by_cases h : isHoriz a
      · have ha : a = ' ' := eq_space_of_isHoriz h (fun hEq => hnt (by simp [NoTab, hEq]))
        simp [collapseH, h, ha]
      · simp [collapseH, h]
    | cons b rest =>
      intro hg hnt
      have hab : hOK a b := (List.chain'_cons.mp hg).1
      have htail : HGood (b :: rest) := (List.chain'_cons.mp hg).2
      have hnt2 : NoTab (b :: rest) := fun hmem => hnt (List.mem_cons_of_mem a hmem)
      by_cases h : isHoriz a
      · have hb : isHoriz b = false := by
          rcases hab with h1 | h1
          · rw [h] at h1; exact absurd h1 (by decide)
          · exact h1
        have ha : a = ' ' := eq_space_of_isHoriz h (fun hEq => hnt (by simp [NoTab, hEq]))
        have hstep : collapseH (a :: b :: rest) = ' ' :: collapseH (b :: rest) := by
          simp [collapseH, h, hb]
        rw [hstep, ih htail hnt2, ha]
      · have hstep : collapseH (a :: b :: rest) = a :: collapseH (b :: rest) := by
          simp [collapseH, h]
        rw [hstep, ih htail hnt2]

/-! ## Lemmas about newline-run collapsing -/

theorem collapseN_head : ∀ l : List Char, (collapseN l).head? = l.head? := by
  intro l
  induction l with
  | nil => rfl
  | cons a tail ih =>
    cases tail with
    | nil => rfl
    | cons b tail2 =>
      cases tail2 with
      | nil => rfl
      | cons c rest =>
        by_cases h : a = '\n' ∧ b = '\n' ∧ c = '\n'
        · have hstep : collapseN (a :: b :: c :: rest) = collapseN (b :: c :: rest) := by
            simp [collapseN, h]
          rw [hstep, ih]
          simp [h.1, h.2.1]
        · simp [collapseN, h]

theorem collapseN_sublist : ∀ l : List Char, List.Sublist (collapseN l) l := by
  intro l
  induction l with
  | nil => exact List.Sublist.refl _
  | cons a tail ih =>
    cases tail with
    | nil => exact List.Sublist.refl _
    | cons b tail2 =>
      cases tail2 with
      | nil => exact List.Sublist.refl _
      | cons c rest =>
        by_cases h : a = '\n' ∧ b = '\n' ∧ c = '\n'
        · have hstep : collapseN (a :: b :: c :: rest) = collapseN (b :: c :: rest) := by
            simp [collapseN, h]
          rw [hstep]
          exact ih.cons a
        · have hstep : collapseN (a :: b :: c :: rest) = a :: collapseN (b :: c :: rest) := by
            simp [collapseN, h]
          rw [hstep]
          exact ih.cons₂ a

theorem collapseN_hgood : ∀ l : List Char, HGood l → HGood (collapseN l) := by
  intro l
  induction l with
  | nil => intro h; exact h
  | cons a tail ih =>
    cases tail with
    | nil => intro h; exact h
    | cons b tail2 =>
      cases tail2 with
      | nil => intro h; exact h
      | cons c rest =>
        intro hg
        have hab : hOK a b := (List.chain'_cons.mp hg).1
        have htail : HGood (b :: c :: rest) := (List.chain'_cons.mp hg).2
        by_cases h : a = '\n' ∧ b = '\n' ∧ c = '\n'
        · have hstep : collapseN (a :: b :: c :: rest) = collapseN (b :: c :: rest) := by
            simp [collapseN, h]
          rw [hstep]
          exact ih htail
        · have hstep : collapseN (a :: b :: c :: rest) = a :: collapseN (b :: c :: rest) := by
            simp [collapseN, h]
          rw [hstep]
          refine List.chain'_cons'.mpr ⟨?_, ih htail⟩
          intro y hy
          rw [collapseN_head (b :: c :: rest)] at hy
          simp at hy
          exact hy ▸ hab

theorem collapseN_NoNNN : ∀ l : List Char, NoNNN (collapseN l) := by
  intro l
  induction l with
  | nil => intro hinf; have := hinf.length_le; simp [collapseN] at this
  | cons a tail ih =>
    cases tail with
    | nil => intro hinf; have := hinf.length_le; simp [collapseN] at this
    | cons b tail2 =>
      cases tail2 with
      | nil => intro hinf; have := hinf.length_le; simp [collapseN] at this
      | cons c rest =>
        by_cases h : a = '\n' ∧ b = '\n' ∧ c = '\n'
        · have hstep : collapseN (a :: b :: c :: rest) = collapseN (b :: c :: rest) := by
            simp [collapseN, h]
          rw [hstep]
          exact ih
        · have hstep : collapseN (a :: b :: c :: rest) = a :: collapseN (b :: c :: rest) := by
            simp [collapseN, h]
          rw [hstep]
          intro hinf
          rcases List.infix_cons_iff.mp hinf with hpre | hinf2
          · rcases List.cons_prefix_cons.mp hpre with ⟨ha, hpre2⟩
            obtain ⟨t, ht⟩ := hpre2
            have hb : b = '\n' := by
              have hh := collapseN_head (b :: c :: rest)
              rw [← ht] at hh
              simpa using hh.symm
            have hc : c ≠ '\n' := fun hcc => h ⟨ha.symm, hb, hcc⟩
            cases rest with
            | nil =>
              rw [hb, show collapseN ['\n', c] = ['\n', c] from rfl] at ht
              have h2 := ht
              simp at h2
              exact hc h2.1.symm
            | cons r rs =>
              have hstep2 : collapseN (b :: c :: r :: rs) = b :: collapseN (c :: r :: rs) := by
                have hnx : ¬ (b = '\n' ∧ c = '\n' ∧ r = '\n') := fun hx => hc hx.2.1
                simp [collapseN, hnx]
              rw [hstep2] at ht
              have ht2 : '\n' :: t = collapseN (c :: r :: rs) := by
                have h2 := ht
                simp at h2
                exact h2.2
              have hsecond : (collapseN (c :: r :: rs)).head? = some c :=
                collapseN_head (c :: r :: rs)
              rw [← ht2] at hsecond
              simp at hsecond
              exact hc hsecond.symm
          · exact ih hinf2

theorem collapseN_id : ∀ l : List Char, NoNNN l → collapseN l = l := by
  intro l
  induction l with
  | nil => intro _; rfl
  | cons a tail ih =>
    cases tail with
    | nil => intro _; rfl
    | cons b tail2 =>
      cases tail2 with
      | nil => intro _; rfl
      | cons c rest =>
        intro hn
        by_cases h : a = '\n' ∧ b = '\n' ∧ c = '\n'
        · exfalso
          apply hn
          refine List.IsPrefix.isInfix ⟨rest, ?_⟩
          rw [h.1, h.2.1, h.2.2]
          rfl
        · have hstep : collapseN (a :: b :: c :: rest) = a :: collapseN (b :: c :: rest) := by
            simp [collapseN, h]
          rw [hstep]
          have htail : NoNNN (b :: c :: rest) := fun hi =>
            hn (hi.trans (List.suffix_cons a _).isInfix)
          rw [ih htail]

/-! ## Lemmas about stripping -/

theorem dropWhile_head_not (p : Char → Bool) :
    ∀ (l : List Char) (c : Char), (l.dropWhile p).head? = some c → p c = false := by
  intro l
  induction l with
  | nil => intro c h; simp at h
  | cons a tail ih =>
    intro c h
    by_cases hp : p a
    · rw [List.dropWhile_cons, if_pos hp] at h
      exact ih c h
    · rw [List.dropWhile_cons, if_neg hp] at h
      have hac : a = c := by simpa using h
      simp at hp
      rw [← hac]
      exact hp

theorem pyStrip_stripped (l : List Char) : Stripped (pyStrip l) := by
  constructor
  · intro c hc
    rw [pyStrip, List.head?_reverse] at hc
    obtain ⟨s, hs⟩ : (l.dropWhile pySpace).reverse.dropWhile pySpace <:+
        (l.dropWhile pySpace).reverse := List.dropWhile_suffix pySpace
    have hx : (l.dropWhile pySpace).reverse.getLast? = some c := by
      rw [← hs, List.getLast?_append, hc]
      rfl
    rw [List.getLast?_reverse] at hx
    exact dropWhile_head_not pySpace _ c hx
  · intro c hc
    rw [pyStrip, List.getLast?_reverse] at hc
    exact dropWhile_head_not pySpace _ c hc

theorem pyStrip_id (l : List Char) (h : Stripped l) : pyStrip l = l := by
  have h1 : l.dropWhile pySpace = l := by
    cases l with
    | nil => rfl
    | cons a t =>
      have ha : pySpace a = false := h.1 a rfl
      rw [List.dropWhile_cons, if_neg (by simp [ha])]
  have h2 : l.reverse.dropWhile pySpace = l.reverse := by
    cases hr : l.reverse with
    | nil => rfl
    | cons a t =>
      have ha : l.getLast? = some a := by
        rw [← List.head?_reverse, hr]
        rfl
      have hfa : pySpace a = false := h.2 a (by rw [ha]; rfl)
      rw [List.dropWhile_cons, if_neg (by simp [hfa])]
  rw [pyStrip, h1, h2, List.reverse_reverse]

theorem pyStrip_infix (l : List Char) : pyStrip l <:+: l := by
  have h1 : l.dropWhile pySpace <:+ l := List.dropWhile_suffix pySpace
  have h2 : (l.dropWhile pySpace).reverse.dropWhile pySpace <:+
      (l.dropWhile pySpace).reverse := List.dropWhile_suffix pySpace
  have h3 : pyStrip l <+: l.dropWhile pySpace := by
    apply List.reverse_suffix.mp
    rw [pyStrip, List.reverse_reverse]
    exact h2
  exact h3.isInfix.trans h1.isInfix

/-! ## Invariants of the normalised output -/

theorem normalize_invariants (l : List Char) :
    HGood (normalize_text l) ∧ NoTab (normalize_text l) ∧
    NoNNN (normalize_text l) ∧ Stripped (normalize_text l) := by
  have hH := collapseH_good l
  have hu1 : HGood (collapseN (collapseH l)) := collapseN_hgood _ hH.1
  have hu2 : NoTab (collapseN (collapseH l)) :=
    fun m => hH.2 ((collapseN_sublist _).subset m)
  have hu3 : NoNNN (collapseN (collapseH l)) := collapseN_NoNNN _
  have hinf : normalize_text l <:+: collapseN (collapseH l) := pyStrip_infix _
  have hgv : HGood (normalize_text l) := List.Chain'.infix hu1 hinf
  exact ⟨hgv, fun m => hu2 (hinf.subset m),
         fun hi => hu3 (hi.trans hinf), pyStrip_stripped _⟩

/-- C9: text normalisation is idempotent — applying `normalize_text` to an
already-normalised string changes nothing. -/
theorem normalize_text_idem (l : List Char) :
    normalize_text (normalize_text l) = normalize_text l := by
  obtain ⟨h1, h2, h3, h4⟩ := normalize_invariants l
  rw [normalize_text, collapseH_id _ h1 h2, collapseN_id _ h3, pyStrip_id _ h4]

/-! ## Run-level behaviour of the collapsing passes -/

theorem collapseH_run : ∀ (run rest : List Char), run ≠ [] →
    (∀ c ∈ run, isHoriz c = true) → (∀ c ∈ rest.head?, isHoriz c = false) →
    collapseH (run ++ rest) = ' ' :: collapseH rest := by
  intro run
  induction run with
  | nil => intro rest h; exact absurd rfl h
  | cons x run' ih =>
    intro rest _ hall hrest
    have hx : isHoriz x = true := hall x (List.mem_cons_self x run')
    cases run' with
    | nil =>
      cases rest with
      | nil => simp [collapseH, hx]
      | cons r rs =>
        have hr : isHoriz r = false := hrest r rfl
        simp [collapseH, hx, hr]
    | cons y run'' =>
      have hy : isHoriz y = true := hall y (by simp)
      have hstep : collapseH (x :: y :: (run'' ++ rest)) = collapseH (y :: (run'' ++ rest)) := by
        simp [collapseH, hx, hy]
      rw [show ((x :: y :: run'') ++ rest) = x :: y :: (run'' ++ rest) from rfl, hstep]
      exact ih rest (by simp) (fun c hc => hall c (List.mem_cons_of_mem x hc)) hrest

theorem collapseN_single_newline : ∀ rest : List Char,
    (∀ c ∈ rest.head?, c ≠ '\n') → collapseN ('\n' :: rest) = '\n' :: collapseN rest := by
  intro rest hrest
  cases rest with
  | nil => rfl
  | cons b t =>
    cases t with
    | nil => rfl
    | cons c t2 =>
      have hb : b ≠ '\n' := hrest b rfl
      simp [collapseN, hb]

theorem collapseN_double_newline : ∀ rest : List Char,
    (∀ c ∈ rest.head?, c ≠ '\n') →
    collapseN ('\n' :: '\n' :: rest) = '\n' :: '\n' :: collapseN rest := by
  intro rest hrest
  cases rest with
  | nil => rfl
  | cons r rs =>
    have hr : r ≠ '\n' := hrest r rfl
    rw [show collapseN ('\n' :: '\n' :: r :: rs) = '\n' :: collapseN ('\n' :: r :: rs) by
      simp [collapseN, hr]]
    rw [collapseN_single_newline (r :: rs) hrest]

theorem collapseN_run_ge3 : ∀ (n : Nat) (rest : List Char), 3 ≤ n →
    (∀ c ∈ rest.head?, c ≠ '\n') →
    collapseN (List.replicate n '\n' ++ rest) = '\n' :: '\n' :: collapseN rest := by
  intro n
  induction n with
  | zero => intro rest h; omega
  | succ m ih =>
    intro rest hn hrest
    rcases Nat.lt_or_ge m 3 with h3 | h3
    · have hm : m = 2 := by omega
      subst hm
      rw [show List.replicate 3 '\n' ++ rest = '\n' :: '\n' :: '\n' :: rest from rfl]
      rw [show collapseN ('\n' :: '\n' :: '\n' :: rest) = collapseN ('\n' :: '\n' :: rest) by
        simp [collapseN]]
      exact collapseN_double_newline rest hrest
    · obtain ⟨k, rfl⟩ : ∃ k, m = k + 3 := ⟨m - 3, by omega⟩
      have hshape : List.replicate (k + 3 + 1) '\n' ++ rest =
          '\n' :: '\n' :: '\n' :: (List.replicate (k + 1) '\n' ++ rest) := by
        simp [List.replicate_succ]
      rw [hshape]
      rw [show collapseN ('\n' :: '\n' :: '\n' :: (List.replicate (k + 1) '\n' ++ rest)) =
          collapseN ('\n' :: '\n' :: (List.replicate (k + 1) '\n' ++ rest)) by
        simp [collapseN]]
      have hback : '\n' :: '\n' :: (List.replicate (k + 1) '\n' ++ rest) =
          List.replicate (k + 3) '\n' ++ rest := by
        simp [List.replicate_succ]
      rw [hback]
      exact ih rest (by omega) hrest

/-- C6 (amended): `normalize_text` collapses each maximal run of horizontal
whitespace (spaces and tabs) to a single space; it collapses each maximal run
of three or more consecutive newline characters — that is, two or more
consecutive blank lines — to exactly two newlines (one blank line), while
runs of at most two newlines are kept unchanged; and it trims leading and
trailing whitespace.  (The original claim said runs of up to two blank lines
are kept, but the source pattern collapses at three newlines, i.e. already at
two blank lines.) -/
theorem normalize_text_runs :
    (∀ run rest : List Char, run ≠ [] → (∀ c ∈ run, isHoriz c = true) →
      (∀ c ∈ rest.head?, isHoriz c = false) →
      collapseH (run ++ rest) = ' ' :: collapseH rest) ∧
    (∀ (n : Nat) (rest : List Char), 3 ≤ n → (∀ c ∈ rest.head?, c ≠ '\n') →
      collapseN (List.replicate n '\n' ++ rest) = '\n' :: '\n' :: collapseN rest) ∧
    (∀ (n : Nat) (rest : List Char), n ≤ 2 → (∀ c ∈ rest.head?, c ≠ '\n') →
      collapseN (List.replicate n '\n' ++ rest) = List.replicate n '\n' ++ collapseN rest) ∧
    (∀ l : List Char,
      normalize_text l = pyStrip (collapseN (collapseH l)) ∧
      Stripped (normalize_text l)) := by
  refine ⟨collapseH_run, collapseN_run_ge3, ?_, fun l => ⟨rfl, (normalize_invariants l).2.2.2⟩⟩
  intro n rest hn hrest
  interval_cases n
  · simp
  · simpa using collapseN_single_newline rest hrest
  · simpa using collapseN_double_newline rest hrest

/-- Concrete check for the amended C6 statement: a horizontal run collapses
to one space, a four-newline run collapses to two newlines, a two-newline run
is kept, and a normalised string is trimmed. -/
theorem normalize_text_runs_check :
    collapseH ((" \t").toList ++ ("b").toList) = ' ' :: collapseH (("b").toList) ∧
    collapseN (List.replicate 4 '\n' ++ ("b").toList) =
      '\n' :: '\n' :: collapseN (("b").toList) ∧
    collapseN (List.replicate 2 '\n' ++ ("b").toList) =
      List.replicate 2 '\n' ++ collapseN (("b").toList) ∧
    Stripped (normalize_text ((" a ").toList)) := by
  refine ⟨?_, ?_, ?_, ?_⟩
  · exact normalize_text_runs.1 _ _ (by decide) (by decide) (by decide)
  · exact normalize_text_runs.2.1 4 _ (by decide) (by decide)
  · exact normalize_text_runs.2.2.1 2 _ (by decide) (by decide)
  · exact (normalize_text_runs.2.2.2 _).2

/-- C2 (amended): for every embedding provider, query and k, `retrieve` on an
empty persisted index returns the empty list (and, being a total function,
never raises); the query text itself is never inspected for emptiness. -/
theorem retrieve_empty_index (embed : String → List ℚ) (query : String) (k : Nat) :
    retrieve embed [] query k = [] := by
  simp [retrieve, queryIndex, List.insertionSort]

/-- Concrete check for the amended C2 statement at a blank query and k = 3. -/
theorem retrieve_empty_index_check : retrieve ceEmbed [] (" ") 3 = [] :=
  retrieve_empty_index ceEmbed (" ") 3

/-- C2 counterexample: the one-space query is empty after trimming, yet
against a non-empty index `retrieve` returns a non-empty result list — the
source performs no emptiness or trimming check on the query. -/
theorem retrieve_blank_query_nonempty :
    pyStrip ((" ").toList) = [] ∧ retrieve ceEmbed ceIndex (" ") 1 ≠ [] := by
  constructor
  · decide
  · simp [retrieve, queryIndex, ceEmbed, ceIndex, List.insertionSort, List.orderedInsert]

/-! ## Lemmas about the segmenter pipeline -/

theorem strmk_inj : Function.Injective String.mk := by
  intro a b h
  injection h

theorem mkChunk_sc_id (e : Node × List Node × (List Char × List Char)) :
    (mkChunk e).sc_id = String.mk e.2.2.1 := rfl

theorem dedupBy_not_seen : ∀ (seen : List (List Char)) l e,
    e ∈ dedupBy seen l → e.2.2.1 ∉ seen := by
  intro seen l
  induction l generalizing seen with
  | nil => intro e h; simp [dedupBy] at h
  | cons x rest ih =>
    intro e h
    by_cases hx : x.2.2.1 ∈ seen
    · rw [show dedupBy seen (x :: rest) = dedupBy seen rest by simp [dedupBy, hx]] at h
      exact ih seen e h
    · rw [show dedupBy seen (x :: rest) = x :: dedupBy (x.2.2.1 :: seen) rest by
        simp [dedupBy, hx]] at h
      rcases List.mem_cons.mp h with h1 | h1
      · exact h1 ▸ hx
      · have h2 := ih (x.2.2.1 :: seen) e h1
        exact fun hm => h2 (List.mem_cons_of_mem _ hm)

theorem dedupBy_nodup : ∀ (seen : List (List Char)) l,
    ((dedupBy seen l).map (fun e => e.2.2.1)).Nodup := by
  intro seen l
  induction l generalizing seen with
  | nil => simp [dedupBy]
  | cons x rest ih =>
    by_cases hx : x.2.2.1 ∈ seen
    · rw [show dedupBy seen (x :: rest) = dedupBy seen rest by simp [dedupBy, hx]]
      exact ih seen
    · rw [show dedupBy seen (x :: rest) = x :: dedupBy (x.2.2.1 :: seen) rest by
        simp [dedupBy, hx]]
      rw [List.map_cons, List.nodup_cons]
      refine ⟨?_, ih _⟩
      intro hmem
      rcases List.mem_map.mp hmem with ⟨e, he, heq⟩
      exact dedupBy_not_seen _ _ e he (by rw [heq]; exact List.mem_cons_self _ _)

theorem dedupBy_sublist : ∀ (seen : List (List Char)) l,
    List.Sublist (dedupBy seen l) l := by
  intro seen l
  induction l generalizing seen with
  | nil => exact List.Sublist.refl _
  | cons x rest ih =>
    by_cases hx : x.2.2.1 ∈ seen
    · rw [show dedupBy seen (x :: rest) = dedupBy seen rest by simp [dedupBy, hx]]
      exact (ih seen).cons x
    · rw [show dedupBy seen (x :: rest) = x :: dedupBy (x.2.2.1 :: seen) rest by
        simp [dedupBy, hx]]
      exact (ih _).cons₂ x

theorem dedupBy_first : ∀ (seen : List (List Char)) l e, e ∈ dedupBy seen l →
    l.find? (fun y => y.2.2.1 == e.2.2.1) = some e := by
  intro seen l
  induction l generalizing seen with
  | nil => intro e h; simp [dedupBy] at h
  | cons x rest ih =>
    intro e h
    by_cases hx : x.2.2.1 ∈ seen
    · rw [show dedupBy seen (x :: rest) = dedupBy seen rest by simp [dedupBy, hx]] at h
      have hne : (x.2.2.1 == e.2.2.1) = false := by
        simp only [beq_eq_false_iff_ne, ne_eq]
        intro heq
        exact dedupBy_not_seen seen rest e h (heq ▸ hx)
      rw [List.find?_cons, hne]
      exact ih seen e h
    · rw [show dedupBy seen (x :: rest) = x :: dedupBy (x.2.2.1 :: seen) rest by
        simp [dedupBy, hx]] at h
      rcases List.mem_cons.mp h with h1 | h1
      · subst h1
        rw [List.find?_cons, show (e.2.2.1 == e.2.2.1) = true by simp]
      · have hne : (x.2.2.1 == e.2.2.1) = false := by
          simp only [beq_eq_false_iff_ne, ne_eq]
          intro heq
          exact dedupBy_not_seen _ _ e h1 (by rw [← heq]; exact List.mem_cons_self _ _)
        rw [List.find?_cons, hne]
        exact ih _ e h1

/-- C4: body-text accumulation stops at the first element that is another
recognised chunk head or a top-level (h2) section heading: the collected
parts come exactly from the elements strictly before that first stopping
element, so the chunk's text never includes content from a later chunk or a
later top-level section. -/
theorem collect_stops_at_boundary (start : Node) (following : List Node) :
    collectParts following =
      (following.takeWhile
        (fun n => !((is_sc_node n).isSome || is_major_section_heading n))).filterMap
        bodyPart ∧
    collect_until_next_sc start following =
      normalize_text (joinNL (start.text ::
        (following.takeWhile
          (fun n => !((is_sc_node n).isSome || is_major_section_heading n))).filterMap
          bodyPart)) := by
  have key : ∀ l : List Node, collectParts l =
      (l.takeWhile
        (fun n => !((is_sc_node n).isSome || is_major_section_heading n))).filterMap
        bodyPart := by
    intro l
    induction l with
    | nil => rfl
    | cons el rest ih =>
      by_cases h1 : (is_sc_node el).isSome
      · have hcp : collectParts (el :: rest) = [] := by simp [collectParts, h1]
        have htw : List.takeWhile
            (fun n => !((is_sc_node n).isSome || is_major_section_heading n))
            (el :: rest) = [] := by
          rw [List.takeWhile_cons]
          simp [h1]
        rw [hcp, htw]
        rfl
      · have hnone : is_sc_node el = none := Option.not_isSome_iff_eq_none.mp h1
        by_cases h2 : is_major_section_heading el
        · have hcp : collectParts (el :: rest) = [] := by simp [collectParts, h1, h2]
          have htw : List.takeWhile
              (fun n => !((is_sc_node n).isSome || is_major_section_heading n))
              (el :: rest) = [] := by
            rw [List.takeWhile_cons]
            simp [h2]
          rw [hcp, htw]
          rfl
        · have htw : (el :: rest).takeWhile
              (fun n => !((is_sc_node n).isSome || is_major_section_heading n)) =
              el :: rest.takeWhile
                (fun n => !((is_sc_node n).isSome || is_major_section_heading n)) := by
            simp [List.takeWhile_cons, hnone, h2]
          rw [htw, List.filterMap_cons]
          cases hb : bodyPart el with
          | some t => simp [collectParts, h1, h2, hb, ih]
          | none => simp [collectParts, h1, h2, hb, ih]
  exact ⟨key following, by rw [collect_until_next_sc, key following]⟩

theorem scNodesAux_mem : ∀ (doc : List Node) (n : Node) (p : List Char × List Char),
    n ∈ doc → is_sc_node n = some p → ∃ rest, (n, rest, p) ∈ scNodesAux doc := by
  intro doc
  induction doc with
  | nil => intro n p h; simp at h
  | cons m tail ih =>
    intro n p hmem hsc
    rcases List.mem_cons.mp hmem with h1 | h1
    · subst h1
      refine ⟨tail, ?_⟩
      rw [show scNodesAux (n :: tail) = (n, tail, p) :: scNodesAux tail by
        simp [scNodesAux, hsc]]
      exact List.mem_cons_self _ _
    · obtain ⟨r2, hr2⟩ := ih n p h1 hsc
      refine ⟨r2, ?_⟩
      cases hm : is_sc_node m with
      | some q =>
        rw [show scNodesAux (m :: tail) = (m, tail, q) :: scNodesAux tail by
          simp [scNodesAux, hm]]
        exact List.mem_cons_of_mem _ hr2
      | none =>
        rw [show scNodesAux (m :: tail) = scNodesAux tail by simp [scNodesAux, hm]]
        exact hr2

theorem dedupBy_mem_ids : ∀ (seen : List (List Char))
    (l : List (Node × List Node × (List Char × List Char))) (ident : List Char),
    (∃ e ∈ l, e.2.2.1 = ident) → ident ∉ seen →
    ∃ e ∈ dedupBy seen l, e.2.2.1 = ident := by
  intro seen l
  induction l generalizing seen with
  | nil =>
    intro ident h _
    obtain ⟨e, he, _⟩ := h
    exact absurd he (List.not_mem_nil e)
  | cons x rest ih =>
    intro ident hex hns
    obtain ⟨e, he, hid⟩ := hex
    by_cases hx : x.2.2.1 ∈ seen
    · rw [show dedupBy seen (x :: rest) = dedupBy seen rest by simp [dedupBy, hx]]
      rcases List.mem_cons.mp he with h1 | h1
      · exfalso
        apply hns
        rw [← hid, h1]
        exact hx
      · exact ih seen ident ⟨e, h1, hid⟩ hns
    · rw [show dedupBy seen (x :: rest) = x :: dedupBy (x.2.2.1 :: seen) rest by
        simp [dedupBy, hx]]
      by_cases heq : x.2.2.1 = ident
      · exact ⟨x, List.mem_cons_self _ _, heq⟩
      · rcases List.mem_cons.mp he with h1 | h1
        · exact absurd (h1 ▸ hid) heq
        · obtain ⟨e2, he2, hid2⟩ := ih (x.2.2.1 :: seen) ident ⟨e, h1, hid⟩ (by
            intro hm
            rcases List.mem_cons.mp hm with hh | hh
            · exact heq hh.symm
            · exact hns hh)
          exact ⟨e2, List.mem_cons_of_mem _ he2, hid2⟩

/-- C3: the segmenter emits at most one chunk per identifier — emitted chunk
identifiers are pairwise distinct, the emitted sequence of identifiers is a
subsequence of the in-document-order scan (document order is preserved), and
every emitted chunk is built from the first scanned head carrying its
identifier. -/
theorem segment_unique_first_ordered (doc : List Node) :
    ((segmentDoc doc).map (fun c => c.sc_id)).Nodup ∧
    List.Sublist ((segmentDoc doc).map (fun c => c.sc_id))
      ((scNodesAux doc).map (fun e => String.mk e.2.2.1)) ∧
    ∀ c ∈ segmentDoc doc, ∃ e, e ∈ dedupBy [] (scNodesAux doc) ∧ c = mkChunk e ∧
      (scNodesAux doc).find? (fun y => y.2.2.1 == e.2.2.1) = some e := by
  have hmapeq : (segmentDoc doc).map (fun c => c.sc_id) =
      (dedupBy [] (scNodesAux doc)).map (fun e => String.mk e.2.2.1) := by
    rw [segmentDoc, List.map_map]
    rfl
  refine ⟨?_, ?_, ?_⟩
  · rw [hmapeq, show (dedupBy [] (scNodesAux doc)).map (fun e => String.mk e.2.2.1) =
        ((dedupBy [] (scNodesAux doc)).map (fun e => e.2.2.1)).map String.mk from by
      rw [List.map_map]; rfl]
    exact List.Nodup.map strmk_inj (dedupBy_nodup [] (scNodesAux doc))
  · rw [hmapeq]
    exact List.Sublist.map _ (dedupBy_sublist [] (scNodesAux doc))
  · intro c hc
    rcases List.mem_map.mp hc with ⟨e, he, heq⟩
    exact ⟨e, he, heq.symm, dedupBy_first [] (scNodesAux doc) e he⟩

/-- Concrete check for C3 on a document with a duplicated identifier. -/
theorem segment_unique_first_ordered_check :
    ((segmentDoc dupDoc).map (fun c => c.sc_id)).Nodup ∧
    ∃ c, c ∈ segmentDoc dupDoc ∧ ∃ e, e ∈ dedupBy [] (scNodesAux dupDoc) ∧
      c = mkChunk e ∧
      (scNodesAux dupDoc).find? (fun y => y.2.2.1 == e.2.2.1) = some e := by
  have hne : segmentDoc dupDoc ≠ [] := by decide
  have hmem := List.head_mem hne
  exact ⟨(segment_unique_first_ordered dupDoc).1,
    ⟨_, hmem, (segment_unique_first_ordered dupDoc).2.2 _ hmem⟩⟩

/-! ## Lemmas about identifier parsing -/

theorem labelMatch_wins {txt : List Char} {p : List Char × List Char}
    (h : labelMatch txt = some p) : parse_sc_from_text txt = some p := by
  rw [parse_sc_from_text, h]

theorem tryNum_shape {l ident : List Char} (h : tryNum l = some ident) :
    ∃ d1 d2 d3, ident = d1 ++ '.' :: d2 ++ '.' :: d3 ∧ d1 ≠ [] ∧
      (∀ c ∈ d1, isDigitC c = true) := by
  rw [tryNum] at h
  simp only at h
  by_cases h1 : (l.takeWhile isDigitC).isEmpty
  · rw [if_pos h1] at h
    exact absurd h (by simp)
  · rw [if_neg h1] at h
    have hd1ne : l.takeWhile isDigitC ≠ [] := by
      intro hx
      exact h1 (by rw [hx]; rfl)
    have hd1dig : ∀ c ∈ l.takeWhile isDigitC, isDigitC c = true :=
      fun c hc => List.mem_takeWhile_imp hc
    cases hr2 : l.dropWhile isDigitC with
    | nil => rw [hr2] at h; exact absurd h (by simp)
    | cons x r2 =>
      rw [hr2] at h
      dsimp only at h
      by_cases hx : x = '.'
      · rw [if_pos hx] at h
        by_cases h2 : (r2.takeWhile isDigitC).isEmpty
        · rw [if_pos h2] at h
          exact absurd h (by simp)
        · rw [if_neg h2] at h
          cases hr4 : r2.dropWhile isDigitC with
          | nil => rw [hr4] at h; exact absurd h (by simp)
          | cons y r4 =>
            rw [hr4] at h
            dsimp only at h
            by_cases hy : y = '.'
            · rw [if_pos hy] at h
              by_cases h3 : (r4.takeWhile isDigitC).isEmpty
              · rw [if_pos h3] at h
                exact absurd h (by simp)
              · rw [if_neg h3] at h
                cases hr6 : r4.dropWhile isDigitC with
                | nil =>
                  rw [hr6] at h
                  dsimp only at h
                  exact ⟨_, _, _, (Option.some_injective _ h).symm, hd1ne, hd1dig⟩
                | cons c cs =>
                  rw [hr6] at h
                  dsimp only at h
                  by_cases hw : wordChar c
                  · rw [if_pos hw] at h
                    exact absurd h (by simp)
                  · rw [if_neg hw] at h
                    exact ⟨_, _, _, (Option.some_injective _ h).symm, hd1ne, hd1dig⟩
            · rw [if_neg hy] at h
              exact absurd h (by simp)
      · rw [if_neg hx] at h
        exact absurd h (by simp)

theorem scanAnywhere_shape : ∀ (prev : Option Char) (l ident : List Char),
    scanAnywhere prev l = some ident →
    ∃ d1 d2 d3, ident = d1 ++ '.' :: d2 ++ '.' :: d3 ∧ d1 ≠ [] ∧
      (∀ c ∈ d1, isDigitC c = true) := by
  intro prev l
  induction l generalizing prev with
  | nil => intro ident h; simp [scanAnywhere] at h
  | cons c cs ih =>
    intro ident h
    rw [scanAnywhere.eq_def] at h
    dsimp only at h
    cases htn : (if (match prev with | none => true | some p => !(wordChar p)) then
        tryNum (c :: cs) else none) with
    | some found =>
      rw [htn] at h
      dsimp only at h
      have hident : found = ident := Option.some_injective _ h
      have htry : tryNum (c :: cs) = some found := by
        cases prev with
        | none => simpa using htn
        | some p =>
          by_cases hw : wordChar p
          · simp [hw] at htn
          · simpa [hw] using htn
      exact hident ▸ tryNum_shape htry
    | none =>
      rw [htn] at h
      dsimp only at h
      exact ih (some c) ident h

theorem firstComp_digits {d1 d2 d3 : List Char}
    (hd : ∀ c ∈ d1, isDigitC c = true) :
    firstComp (d1 ++ '.' :: d2 ++ '.' :: d3) = d1 := by
  induction d1 with
  | nil => simp [firstComp]
  | cons x xs ih =>
    have hx : isDigitC x = true := hd x (List.mem_cons_self x xs)
    have hxd : (x != '.') = true := by
      simp only [bne_iff_ne, ne_eq]
      intro hEq
      rw [hEq] at hx
      exact absurd hx (by decide)
    have ih2 := ih (fun c hc => hd c (List.mem_cons_of_mem x hc))
    rw [firstComp] at ih2 ⊢
    simp only [List.cons_append, List.takeWhile_cons, hxd, ih2]
    simp

/-- C5: the labeled form is tried first — when it matches, that match wins
immediately with full title capture — and only otherwise is the fallback
applied, where an identifier whose first numeric component is the reserved
non-criterion section number 5 is rejected (no parse). -/
theorem parse_priority_and_reserved (txt : List Char) :
    (∀ p, labelMatch txt = some p → parse_sc_from_text txt = some p) ∧
    (labelMatch txt = none → ∀ ident, scanAnywhere none txt = some ident →
      firstComp ident = ['5'] → parse_sc_from_text txt = none) := by
  constructor
  · intro p h
    exact labelMatch_wins h
  · intro hlm ident hscan h5
    obtain ⟨d1, d2, d3, hid, hne, hdig⟩ := scanAnywhere_shape none txt ident hscan
    have hd1 : d1 = ['5'] := by
      rw [hid, firstComp_digits hdig] at h5
      exact h5
    have hpre : List.isPrefixOf ['5', '.'] ident = true := by
      rw [hid, hd1]
      simp [List.isPrefixOf]
    rw [parse_sc_from_text, hlm, hscan]
    simp only [hpre, if_true]

/-- Concrete check for C5: a labeled heading parses with full title capture,
and a fallback heading whose identifier starts with section 5 is rejected. -/
theorem parse_priority_and_reserved_check :
    parse_sc_from_text (("Success Criterion 1.2.3 Example Title").toList) =
      some ((("1.2.3").toList), (("Example Title").toList)) ∧
    parse_sc_from_text (("see 5.1.1 Conformance").toList) = none := by
  constructor
  · exact (parse_priority_and_reserved _).1 _ (by decide)
  · exact (parse_priority_and_reserved _).2 (by decide) (("5.1.1").toList)
      (by decide) (by decide)

/-- C10: the reserved-section rejection applies only to the fallback
strategy: a heading text in labeled form whose identifier's first numeric
component is 5 still parses successfully, and for every document containing
such a heading node the segmenter emits a chunk with that identifier. -/
theorem labeled_reserved_emitted (doc : List Node) (n : Node)
    (ident title : List Char) (hmem : n ∈ doc) (htag : n.name ∈ headingTags)
    (hlab : labelMatch n.text = some (ident, title))
    (h5 : firstComp ident = ['5']) :
    parse_sc_from_text n.text = some (ident, title) ∧
    String.mk ident ∈ (segmentDoc doc).map (fun c => c.sc_id) := by
  have hparse : parse_sc_from_text n.text = some (ident, title) := labelMatch_wins hlab
  refine ⟨hparse, ?_⟩
  have hsc : is_sc_node n = some (ident, title) := by
    rw [is_sc_node, if_pos htag, hparse]
  obtain ⟨rest, hrest⟩ := scNodesAux_mem doc n (ident, title) hmem hsc
  have hex : ∃ e ∈ scNodesAux doc, e.2.2.1 = ident := ⟨(n, rest, (ident, title)), hrest, rfl⟩
  obtain ⟨e, he, hid⟩ := dedupBy_mem_ids [] (scNodesAux doc) ident hex (by simp)
  refine List.mem_map.mpr ⟨mkChunk e, List.mem_map.mpr ⟨e, he, rfl⟩, ?_⟩
  rw [mkChunk_sc_id, hid]

/-- Concrete check for C10: the labeled heading with identifier 5.1.2 parses
and its chunk is emitted for the one-node document containing it. -/
theorem labeled_reserved_emitted_check :
    parse_sc_from_text (("Success Criterion 5.1.2 Title").toList) =
      some ((("5.1.2").toList), (("Title").toList)) ∧
    "5.1.2" ∈ (segmentDoc exDoc).map (fun c => c.sc_id) := by
  have h := labeled_reserved_emitted exDoc
    { name := "h3", text := ("Success Criterion 5.1.2 Title").toList,
      idAttr := some ("anchor-5-1-2"), parentIdAttr := none }
    (("5.1.2").toList) (("Title").toList) (by decide) (by decide) (by decide) (by decide)
  exact ⟨h.1, by simpa using h.2⟩

/-- C7 counterexample: for a concrete chunk whose doc_set field is "wcag22",
the metadata record built by the index builder contains no doc_set key at
all, so that non-text chunk field is not reproduced — neither as a flat
string value nor as an empty string. -/
theorem metadata_missing_doc_set :
    exChunk.doc_set = "wcag22" ∧
    (chunkMetadata exChunk).lookup ("doc_set") = none ∧
    ("doc_set") ∉ (chunkMetadata exChunk).map Prod.fst := by
  exact ⟨rfl, rfl, by decide⟩

/-- C7 (amended): the persisted metadata record reproduces the chunk fields
sc_id, sc_title, level, url, source, normativity and version as flat string
values, with an absent level normalised to the empty string rather than null
or a missing key; the doc_set field is not reproduced — its key is absent
from the record. -/
theorem metadata_fields_reproduced (d : Chunk) :
    (chunkMetadata d).lookup ("sc_id") = some d.sc_id ∧
    (chunkMetadata d).lookup ("sc_title") = some d.sc_title ∧
    (chunkMetadata d).lookup ("level") = some (safe_str d.level) ∧
    (chunkMetadata d).lookup ("url") = some d.url ∧
    (chunkMetadata d).lookup ("source") = some d.source ∧
    (chunkMetadata d).lookup ("normativity") = some d.normativity ∧
    (chunkMetadata d).lookup ("version") = some d.version ∧
    (chunkMetadata d).lookup ("doc_set") = none ∧
    (d.level = none → (chunkMetadata d).lookup ("level") = some ("")) := by
  refine ⟨rfl, rfl, rfl, rfl, rfl, rfl, rfl, rfl, ?_⟩
  intro h
  simp [chunkMetadata, List.lookup, h, safe_str]

/-- Concrete check for the amended C7 statement at a chunk with an absent
level. -/
theorem metadata_fields_reproduced_check :
    (chunkMetadata exChunk).lookup ("level") = some ("") ∧
    (chunkMetadata exChunk).lookup ("doc_set") = none := by
  exact ⟨(metadata_fields_reproduced exChunk).2.2.2.2.2.2.2.2 rfl,
    (metadata_fields_reproduced exChunk).2.2.2.2.2.2.2.1⟩
